import Mathlib

/-!
Verification of the set-relationship operations of `cupy/_logic/truth.py`
(`all`, `any`, `in1d`, `isin`, `intersect1d`, `union1d`) over a shallow
embedding.  Arrays are embedded as their row-major flattened data
(`List Int`) together with a shape; the external primitives the module
composes (`cupy.sort`, `cupy.searchsorted`, `cupy.unique`, `cupy.argsort`,
`cupy.concatenate`) are not part of this module's source and are modelled
from the specification.
-/

namespace CupySet

/-- A dense array: its shape and its row-major flattened element data.
`ravel` of an array is just its `data` field. -/
structure NDArray where
  shape : List Nat
  data : List Int

/-- A boolean-valued array, as produced by the membership operations. -/
structure NDArrayB where
  shape : List Nat
  data : List Bool

/-- Modelled from the spec: the external `sort` primitive (not in src/),
which returns a fresh array holding the same elements in non-decreasing
order. -/
def cupySort (l : List Int) : List Int := l.insertionSort (· ≤ ·)

/-- Modelled from the spec: the external `searchsorted` primitive with the
leftmost boundary policy (not in src/).  On a sorted haystack the leftmost
insertion point of `v` is the number of elements strictly below `v`. -/
def ssLeft (l : List Int) (v : Int) : Nat := l.countP (fun x => decide (x < v))

/-- Modelled from the spec: the external `searchsorted` primitive with the
rightmost boundary policy (not in src/).  On a sorted haystack the rightmost
insertion point of `v` is the number of elements at most `v`. -/
def ssRight (l : List Int) (v : Int) : Nat := l.countP (fun x => decide (x ≤ v))

/-- `in1d(ar1, ar2, assume_unique, invert)` from the source: ravel both
inputs, special-case empty inputs, otherwise sort the reference and compare
the left and right insertion points of each query element.  The
`assume_unique` parameter is accepted and ignored, exactly as in the
source.  The result is the flat boolean array. -/
def in1d (ar1 ar2 : NDArray) (_assume_unique : Bool) (invert : Bool) : List Bool :=
  let a1 := ar1.data
  let a2 := ar2.data
  if a1.length = 0 ∨ a2.length = 0 then
    if invert then List.replicate a1.length true
    else List.replicate a1.length false
  else
    let s2 := cupySort a2
    let v1 := a1.map (fun v => ssLeft s2 v)
    let v2 := a1.map (fun v => ssRight s2 v)
    if invert then (v1.zip v2).map (fun p => p.1 == p.2)
    else (v1.zip v2).map (fun p => p.1 != p.2)

/-- `isin(element, test_elements, assume_unique, invert)` from the source:
`in1d` on the raveled inputs, reshaped to `element`'s shape. -/
def isin (element test_elements : NDArray) (assume_unique invert : Bool) : NDArrayB :=
  ⟨element.shape, in1d element test_elements assume_unique invert⟩

/-- `cupy.all` with `axis=None`, restricted to the configuration the claims
mention.  The fusion-status test is modelled as the boolean `is_fusing`
(the thread-local query is not in src/); the reductions themselves are
modelled from the spec as the eager conjunction of the truthiness of the
elements. -/
def cupyAll (is_fusing : Bool) (a : NDArray) (keepdims : Bool) : Except String Bool :=
  if is_fusing then
    if keepdims then
      Except.error "cupy.all does not support keepdims in fusion yet."
    else
      Except.ok (a.data.all (fun v => v != 0))
  else
    Except.ok (a.data.all (fun v => v != 0))

/-- `cupy.any` with `axis=None`, modelled like `cupyAll`. -/
def cupyAny (is_fusing : Bool) (a : NDArray) (keepdims : Bool) : Except String Bool :=
  if is_fusing then
    if keepdims then
      Except.error "cupy.any does not support keepdims in fusion yet."
    else
      Except.ok (a.data.any (fun v => v != 0))
  else
    Except.ok (a.data.any (fun v => v != 0))

/-! ### Searchsorted membership lemmas -/

lemma countP_le_split (l : List Int) (v : Int) :
    l.countP (fun x => decide (x ≤ v)) =
      l.countP (fun x => decide (x < v)) + l.count v := by
  induction l with
  | nil => simp
  | cons a l ih =>
    simp only [List.countP_cons, List.count_cons, ih]
    rcases lt_trichotomy a v with h | h | h
    · have h1 : decide (a ≤ v) = true := by simp [le_of_lt h]
      have h2 : decide (a < v) = true := by simp [h]
      have h3 : ¬ (a == v) = true := by simp [ne_of_lt h]
      simp [h1, h2, h3]
      omega
    · subst h
      simp
      omega
    · have h1 : ¬ decide (a ≤ v) = true := by simp [not_le.mpr h]
      have h2 : ¬ decide (a < v) = true := by simp [not_lt.mpr (le_of_lt h)]
      have h3 : ¬ (a == v) = true := by simp [(ne_of_lt h).symm]
      simp [h1, h2, h3]

lemma ssRight_eq_ssLeft_add (l : List Int) (v : Int) :
    ssRight l v = ssLeft l v + l.count v :=
  countP_le_split l v

lemma ssLeft_ne_ssRight_iff (a2 : List Int) (v : Int) :
    (ssLeft (cupySort a2) v ≠ ssRight (cupySort a2) v) ↔ v ∈ a2 := by
  rw [ssRight_eq_ssLeft_add]
  have hperm : (cupySort a2).count v = a2.count v :=
    (List.perm_insertionSort (· ≤ ·) a2).count_eq v
  rw [hperm]
  constructor
  · intro h
    by_contra hmem
    rw [List.count_eq_zero.mpr hmem] at h
    omega
  · intro h
    have := List.count_pos_iff.mpr h
    omega

/-- Characterisation of `in1d`: it maps every element of the flattened
query to the (possibly inverted) membership bit. -/
lemma in1d_eq_map (ar1 ar2 : NDArray) (au inv : Bool) :
    in1d ar1 ar2 au inv =
      ar1.data.map (fun v => inv != decide (v ∈ ar2.data)) := by
  unfold in1d
  by_cases hempty : ar1.data.length = 0 ∨ ar2.data.length = 0
  · rw [if_pos hempty]
    rcases hempty with h1 | h2
    · rw [List.length_eq_zero] at h1
      rw [h1]
      cases inv <;> simp
    · rw [List.length_eq_zero] at h2
      rw [h2]
      cases inv <;>
        simp [List.map_const', List.not_mem_nil]
  · rw [if_neg hempty]
    simp only [List.zip_map', List.map_map]
    have key : ∀ v : Int,
        ((ssLeft (cupySort ar2.data) v != ssRight (cupySort ar2.data) v) : Bool)
          = decide (v ∈ ar2.data) := by
      intro v
      have := ssLeft_ne_ssRight_iff ar2.data v
      by_cases hv : v ∈ ar2.data
      · simp [hv, this.mpr hv]
      · have : ssLeft (cupySort ar2.data) v = ssRight (cupySort ar2.data) v := by
          by_contra hne
          exact hv (this.mp hne)
        simp [hv, this]
    cases inv with
    | false =>
      simp only [if_neg Bool.false_ne_true]
      apply List.map_congr_left
      intro v _
      simp only [Function.comp]
      rw [key v]
      cases hd : decide (v ∈ ar2.data) <;> simp [hd]
    | true =>
      simp only [if_pos rfl]
      apply List.map_congr_left
      intro v _
      simp only [Function.comp]
      have h1 : ((ssLeft (cupySort ar2.data) v == ssRight (cupySort ar2.data) v) : Bool)
          = !(ssLeft (cupySort ar2.data) v != ssRight (cupySort ar2.data) v) := by
        simp [bne]
      rw [h1, key v]
      cases hd : decide (v ∈ ar2.data) <;> simp [hd]

/-! ### The `unique` primitive and `union1d` / `intersect1d` -/

/-- Modelled from the spec: the external `unique` primitive (not in src/),
returning the sorted distinct values of the flattened input. -/
def cupyUnique (l : List Int) : List Int := (cupySort l).dedup

/-- Modelled from the spec: the external `unique` primitive with
`return_index=True` (not in src/): the sorted distinct values together
with, for each of them, the index of its first occurrence in the original
array. -/
def cupyUniqueIdx (l : List Int) : List Int × List Nat :=
  (cupyUnique l, (cupyUnique l).map (fun v => l.indexOf v))

/-- Boolean-mask selection, the embedding of `arr[mask]`. -/
def boolSelect {α : Type} : List α → List Bool → List α
  | [], _ => []
  | _ :: _, [] => []
  | a :: l, b :: m => if b then a :: boolSelect l m else boolSelect l m

/-- The adjacency mask `aux[1:] == aux[:-1]` of the source (elementwise
equality of each element with its successor). -/
def eqMask (l : List Int) : List Bool :=
  (l.dropLast.zip l.tail).map (fun p => p.1 == p.2)

/-- `intersect1d(arr1, arr2, assume_unique, return_indices=False)` from the
source: optionally deduplicate both inputs, concatenate, sort the buffer in
place, then keep each element that equals its successor. -/
def intersect1d (arr1 arr2 : NDArray) (assume_unique : Bool) : List Int :=
  let a1 := if assume_unique then arr1.data else cupyUnique arr1.data
  let a2 := if assume_unique then arr2.data else cupyUnique arr2.data
  let aux := cupySort (a1 ++ a2)
  boolSelect aux.dropLast (eqMask aux)

/-- `union1d(arr1, arr2)` from the source:
`unique(concatenate(arr1, arr2, axis=None))`. -/
def union1d (arr1 arr2 : NDArray) : List Int :=
  cupyUnique (arr1.data ++ arr2.data)

lemma cupySort_sorted (l : List Int) : (cupySort l).Sorted (· ≤ ·) :=
  List.sorted_insertionSort (· ≤ ·) l

lemma cupySort_perm (l : List Int) : List.Perm (cupySort l) l :=
  List.perm_insertionSort (· ≤ ·) l

lemma cupyUnique_sorted (l : List Int) : (cupyUnique l).Sorted (· ≤ ·) :=
  (cupySort_sorted l).sublist (List.dedup_sublist _)

lemma cupyUnique_nodup (l : List Int) : (cupyUnique l).Nodup :=
  List.nodup_dedup _

lemma mem_cupyUnique {l : List Int} {v : Int} : v ∈ cupyUnique l ↔ v ∈ l := by
  rw [cupyUnique, List.mem_dedup]
  exact (cupySort_perm l).mem_iff

/-! ### The adjacency extraction at the heart of `intersect1d` -/

/-- Recursive form of `aux[:-1][aux[1:] == aux[:-1]]`: keep each element
that equals its immediate successor. -/
def extractAdj : List Int → List Int
  | [] => []
  | [_] => []
  | a :: b :: t => if a = b then a :: extractAdj (b :: t) else extractAdj (b :: t)

lemma eqMask_cons₂ (a b : Int) (t : List Int) :
    eqMask (a :: b :: t) = (a == b) :: eqMask (b :: t) := by
  simp [eqMask, List.dropLast_cons₂]

lemma boolSelect_eqMask (l : List Int) :
    boolSelect l.dropLast (eqMask l) = extractAdj l := by
  induction l using extractAdj.induct with
  | case1 => rfl
  | case2 a => rfl
  | case3 b t ih =>
    have hrw : extractAdj (b :: b :: t) = b :: extractAdj (b :: t) := by
      simp [extractAdj]
    rw [hrw, List.dropLast_cons₂, eqMask_cons₂, ← ih]
    simp [boolSelect]
  | case4 a b t hab ih =>
    simp only [extractAdj, if_neg hab]
    have hb : (a == b) = false := by simp [hab]
    rw [List.dropLast_cons₂, eqMask_cons₂, ← ih]
    simp [boolSelect, hb]

/-- On a sorted list in which no value occurs more than twice, the
adjacency extraction returns a sorted duplicate-free list whose members
are exactly the values occurring twice. -/
lemma extractAdj_spec (l : List Int) (hs : l.Sorted (· ≤ ·))
    (hc : ∀ v : Int, l.count v ≤ 2) :
    (extractAdj l).Sorted (· ≤ ·) ∧ (extractAdj l).Nodup ∧
      ∀ v : Int, v ∈ extractAdj l ↔ l.count v = 2 := by
  induction l using extractAdj.induct with
  | case1 =>
    refine ⟨List.sorted_nil, List.nodup_nil, ?_⟩
    intro v
    simp [extractAdj]
  | case2 a =>
    refine ⟨List.sorted_nil, List.nodup_nil, ?_⟩
    intro v
    simp only [extractAdj, List.not_mem_nil, false_iff]
    have hle : List.count v [a] ≤ 1 := by
      rw [List.count_cons, List.count_nil]
      split <;> omega
    omega
  | case3 b t ih =>
    have hs' : (b :: t).Sorted (· ≤ ·) := hs.of_cons
    have hc' : ∀ v : Int, (b :: t).count v ≤ 2 := by
      intro v
      have h := hc v
      rw [List.count_cons] at h
      split at h <;> omega
    obtain ⟨ihs, ihn, ihm⟩ := ih hs' hc'
    have hbt : b ∉ t := by
      have h := hc b
      rw [List.count_cons_self, List.count_cons_self] at h
      rw [← List.count_eq_zero]
      omega
    have hcount_b : List.count b (b :: t) = 1 := by
      rw [List.count_cons_self, List.count_eq_zero.mpr hbt]
    have hmem_b : b ∉ extractAdj (b :: t) := by
      intro hmem
      have h := (ihm b).mp hmem
      omega
    have hrw : extractAdj (b :: b :: t) = b :: extractAdj (b :: t) := by
      simp [extractAdj]
    rw [hrw]
    refine ⟨?_, ?_, ?_⟩
    · rw [List.sorted_cons]
      refine ⟨?_, ihs⟩
      intro x hx
      have hx2 := (ihm x).mp hx
      have hxmem : x ∈ b :: t := by
        rw [← List.count_pos_iff]
        omega
      rcases List.mem_cons.mp hxmem with h | h
      · exact le_of_eq h.symm
      · exact (List.sorted_cons.mp hs').1 x h
    · exact List.nodup_cons.mpr ⟨hmem_b, ihn⟩
    · intro v
      rw [List.mem_cons, ihm v]
      by_cases hvb : v = b
      · subst hvb
        have : List.count v (v :: v :: t) = 2 := by
          rw [List.count_cons_self, List.count_cons_self,
            List.count_eq_zero.mpr hbt]
        simp [this]
      · rw [List.count_cons_of_ne hvb]
        simp [hvb]
  | case4 a b t hab ih =>
    have hs' : (b :: t).Sorted (· ≤ ·) := hs.of_cons
    have hc' : ∀ v : Int, (b :: t).count v ≤ 2 := by
      intro v
      have h := hc v
      rw [List.count_cons] at h
      split at h <;> omega
    obtain ⟨ihs, ihn, ihm⟩ := ih hs' hc'
    have haltb : a ≤ b := (List.sorted_cons.mp hs).1 b (List.mem_cons_self b t)
    have haltb' : a < b := lt_of_le_of_ne haltb hab
    have hanotin : a ∉ b :: t := by
      intro hmem
      rcases List.mem_cons.mp hmem with h | h
      · exact hab h
      · have := (List.sorted_cons.mp hs').1 a h
        omega
    simp only [extractAdj, if_neg hab]
    refine ⟨ihs, ihn, ?_⟩
    intro v
    rw [ihm v]
    by_cases hva : v = a
    · subst hva
      rw [List.count_cons_self, List.count_eq_zero.mpr hanotin]
      omega
    · rw [List.count_cons_of_ne hva]

/-- Core correctness of the adjacency trick: sorting the concatenation of
two duplicate-free lists and extracting adjacent equal pairs yields the
sorted duplicate-free intersection. -/
lemma interCore (u1 u2 : List Int) (h1 : u1.Nodup) (h2 : u2.Nodup) :
    (extractAdj (cupySort (u1 ++ u2))).Sorted (· ≤ ·) ∧
      (extractAdj (cupySort (u1 ++ u2))).Nodup ∧
      ∀ v : Int, v ∈ extractAdj (cupySort (u1 ++ u2)) ↔ v ∈ u1 ∧ v ∈ u2 := by
  have hcount : ∀ v : Int,
      (cupySort (u1 ++ u2)).count v = u1.count v + u2.count v := by
    intro v
    rw [(cupySort_perm (u1 ++ u2)).count_eq v, List.count_append]
  have hb1 : ∀ v : Int, u1.count v ≤ 1 := List.nodup_iff_count_le_one.mp h1
  have hb2 : ∀ v : Int, u2.count v ≤ 1 := List.nodup_iff_count_le_one.mp h2
  have hc : ∀ v : Int, (cupySort (u1 ++ u2)).count v ≤ 2 := by
    intro v
    rw [hcount v]
    have := hb1 v
    have := hb2 v
    omega
  obtain ⟨hsorted, hnodup, hmem⟩ :=
    extractAdj_spec (cupySort (u1 ++ u2)) (cupySort_sorted _) hc
  refine ⟨hsorted, hnodup, ?_⟩
  intro v
  rw [hmem v, hcount v]
  have hm1 : v ∈ u1 ↔ 0 < u1.count v := List.count_pos_iff.symm
  have hm2 : v ∈ u2 ↔ 0 < u2.count v := List.count_pos_iff.symm
  rw [hm1, hm2]
  have := hb1 v
  have := hb2 v
  omega

/-! ### Stable argsort and the index-returning `intersect1d` -/

/-- Comparison used to model the stable sorted permutation: order by
value, breaking ties by original position. -/
def pairLe (p q : Nat × Int) : Prop := p.2 < q.2 ∨ (p.2 = q.2 ∧ p.1 ≤ q.1)

instance : DecidableRel pairLe := fun p q => by
  unfold pairLe
  exact inferInstance

instance : IsTotal (Nat × Int) pairLe :=
  ⟨fun p q => by
    rcases lt_trichotomy p.2 q.2 with h | h | h
    · exact Or.inl (Or.inl h)
    · rcases Nat.le_total p.1 q.1 with h2 | h2
      · exact Or.inl (Or.inr ⟨h, h2⟩)
      · exact Or.inr (Or.inr ⟨h.symm, h2⟩)
    · exact Or.inr (Or.inl h)⟩

instance : IsTrans (Nat × Int) pairLe :=
  ⟨fun p q r hpq hqr => by
    rcases hpq with h1 | ⟨h1, h1'⟩ <;> rcases hqr with h2 | ⟨h2, h2'⟩
    · exact Or.inl (lt_trans h1 h2)
    · exact Or.inl (h2 ▸ h1)
    · exact Or.inl (h1 ▸ h2)
    · exact Or.inr ⟨h1.trans h2, h1'.trans h2'⟩⟩

/-- Modelled from the spec: the external `argsort` primitive (not in src/)
as the spec requires it for index derivation — a sorted permutation of
positions with stable tie-breaking, so that among equal values the
original order (all `arr1`-derived entries before `arr2`-derived ones) is
preserved.  `sortedEnum` sorts the enumerated list by value with ties
broken by position; `argsort` projects out the positions. -/
def sortedEnum (l : List Int) : List (Nat × Int) := l.enum.insertionSort pairLe

/-- The positions of the stable sorted permutation (`cupy.argsort`). -/
def argsort (l : List Int) : List Nat := (sortedEnum l).map Prod.fst

/-- Fancy indexing `l[idx]` by an array of positions. -/
def gather (l : List Int) (idx : List Nat) : List Int :=
  idx.map (fun i => l.getD i 0)

/-- Shared tail of `intersect1d` with `return_indices=True` (source lines
168–182), applied to the already prepared (deduplicated or
caller-guaranteed duplicate-free) inputs: sort the concatenation while
tracking the permutation, mask adjacent equal values, and derive the
positions in the first and (after subtracting `arr1.size`) second input.
Index arrays are integer-valued, as in the source. -/
def intersectIdxCore (u1 u2 : List Int) : List Int × List Int × List Int :=
  let aux0 := u1 ++ u2
  let asi := argsort aux0
  let aux := gather aux0 asi
  let mask := eqMask aux
  (boolSelect aux.dropLast mask,
   (boolSelect asi.dropLast mask).map (fun i : Nat => (i : Int)),
   (boolSelect asi.tail mask).map (fun i : Nat => (i : Int) - (u1.length : Int)))

/-- `intersect1d(arr1, arr2, assume_unique, return_indices=True)` from the
source: without `assume_unique`, the inputs are first deduplicated with
first-occurrence indices `ind1`/`ind2`, and the derived positions are
mapped through them to recover positions in the original arrays. -/
def intersect1dIdx (arr1 arr2 : NDArray) (assume_unique : Bool) :
    List Int × List Int × List Int :=
  if assume_unique then intersectIdxCore arr1.data arr2.data
  else
    let p1 := cupyUniqueIdx arr1.data
    let p2 := cupyUniqueIdx arr2.data
    let r := intersectIdxCore p1.1 p2.1
    (r.1,
     r.2.1.map (fun i => ((p1.2.getD i.toNat 0 : Nat) : Int)),
     r.2.2.map (fun j => ((p2.2.getD j.toNat 0 : Nat) : Int)))

/-! ### Boolean-selection utilities -/

@[simp] lemma boolSelect_nil_left {α : Type} (m : List Bool) :
    boolSelect ([] : List α) m = [] := rfl

@[simp] lemma boolSelect_nil_mask {α : Type} (l : List α) :
    boolSelect l ([] : List Bool) = [] := by
  cases l <;> rfl

@[simp] lemma boolSelect_cons_true {α : Type} (a : α) (l : List α) (m : List Bool) :
    boolSelect (a :: l) (true :: m) = a :: boolSelect l m := rfl

@[simp] lemma boolSelect_cons_false {α : Type} (a : α) (l : List α) (m : List Bool) :
    boolSelect (a :: l) (false :: m) = boolSelect l m := rfl

lemma boolSelect_length_congr {α β : Type} (l1 : List α) (l2 : List β)
    (m : List Bool) (h : l1.length = l2.length) :
    (boolSelect l1 m).length = (boolSelect l2 m).length := by
  induction l1 generalizing l2 m with
  | nil =>
    cases l2 with
    | nil => rfl
    | cons b l2 => simp at h
  | cons a l1 ih =>
    cases l2 with
    | nil => simp at h
    | cons b l2 =>
      have h' : l1.length = l2.length := by simpa using h
      cases m with
      | nil => rfl
      | cons c m => cases c <;> simp [ih l2 m h']

lemma boolSelect_map {α β : Type} (f : α → β) (l : List α) (m : List Bool) :
    boolSelect (l.map f) m = (boolSelect l m).map f := by
  induction l generalizing m with
  | nil => simp
  | cons a l ih =>
    cases m with
    | nil => simp
    | cons b m => cases b <;> simp [ih]

lemma boolSelect_zip {α β : Type} (l1 : List α) (l2 : List β) (m : List Bool) :
    (boolSelect l1 m).zip (boolSelect l2 m) = boolSelect (l1.zip l2) m := by
  induction l1 generalizing l2 m with
  | nil => simp
  | cons a l1 ih =>
    cases l2 with
    | nil =>
      cases m with
      | nil => simp
      | cons b m => cases b <;> simp
    | cons c l2 =>
      cases m with
      | nil => simp
      | cons b m => cases b <;> simp [ih]

lemma mem_boolSelect {α : Type} {l : List α} {m : List Bool} {x : α}
    (h : x ∈ boolSelect l m) : x ∈ l := by
  induction l generalizing m with
  | nil => simp at h
  | cons a l ih =>
    cases m with
    | nil => simp at h
    | cons b m =>
      cases b with
      | true =>
        rcases List.mem_cons.mp (by simpa using h) with h1 | h1
        · exact h1 ▸ List.mem_cons_self a l
        · exact List.mem_cons_of_mem a (ih h1)
      | false => exact List.mem_cons_of_mem a (ih (by simpa using h))

lemma mem_boolSelect_self_map {α : Type} (f : α → Bool) {l : List α} {x : α}
    (h : x ∈ boolSelect l (l.map f)) : f x = true := by
  induction l with
  | nil => simp at h
  | cons a l ih =>
    by_cases hfa : f a = true
    · rw [List.map_cons, hfa, boolSelect_cons_true] at h
      rcases List.mem_cons.mp h with h1 | h1
      · rw [h1]
        exact hfa
      · exact ih h1
    · have hfa' : f a = false := by
        cases hval : f a
        · rfl
        · exact absurd hval hfa
      rw [List.map_cons, hfa', boolSelect_cons_false] at h
      exact ih h

lemma boolSelect_pair_left {α β : Type} (l1 : List α) (l2 : List β)
    (m : List Bool) (h : l1.length = l2.length) {a : α}
    (ha : a ∈ boolSelect l1 m) :
    ∃ b : β, (a, b) ∈ boolSelect (l1.zip l2) m := by
  induction l1 generalizing l2 m with
  | nil => simp at ha
  | cons x l1 ih =>
    cases l2 with
    | nil => simp at h
    | cons y l2 =>
      have h' : l1.length = l2.length := by simpa using h
      cases m with
      | nil => simp at ha
      | cons b m =>
        cases b with
        | true =>
          rcases List.mem_cons.mp (by simpa using ha) with h1 | h1
          · exact ⟨y, by simp [h1]⟩
          · obtain ⟨bb, hb⟩ := ih l2 m h' h1
            exact ⟨bb, by simp [hb]⟩
        | false =>
          obtain ⟨bb, hb⟩ := ih l2 m h' (by simpa using ha)
          exact ⟨bb, by simp [hb]⟩

lemma boolSelect_pair_right {α β : Type} (l1 : List α) (l2 : List β)
    (m : List Bool) (h : l1.length = l2.length) {b : β}
    (hb : b ∈ boolSelect l2 m) :
    ∃ a : α, (a, b) ∈ boolSelect (l1.zip l2) m := by
  induction l1 generalizing l2 m with
  | nil =>
    cases l2 with
    | nil => simp at hb
    | cons y l2 => simp at h
  | cons x l1 ih =>
    cases l2 with
    | nil => simp at hb
    | cons y l2 =>
      have h' : l1.length = l2.length := by simpa using h
      cases m with
      | nil => simp at hb
      | cons c m =>
        cases c with
        | true =>
          rcases List.mem_cons.mp (by simpa using hb) with h1 | h1
          · exact ⟨x, by simp [h1]⟩
          · obtain ⟨aa, ha⟩ := ih l2 m h' h1
            exact ⟨aa, by simp [ha]⟩
        | false =>
          obtain ⟨aa, ha⟩ := ih l2 m h' (by simpa using hb)
          exact ⟨aa, by simp [ha]⟩

/-! ### Facts about the stable sorted permutation -/

lemma sortedEnum_perm (l : List Int) : List.Perm (sortedEnum l) l.enum :=
  List.perm_insertionSort pairLe l.enum

lemma sortedEnum_sorted (l : List Int) : (sortedEnum l).Sorted pairLe :=
  List.sorted_insertionSort pairLe l.enum

lemma enum_nodup (l : List Int) : l.enum.Nodup := by
  apply List.Nodup.of_map Prod.fst
  rw [List.enum_map_fst]
  exact List.nodup_range _

lemma sortedEnum_nodup (l : List Int) : (sortedEnum l).Nodup :=
  (sortedEnum_perm l).nodup_iff.mpr (enum_nodup l)

lemma sortedEnum_length (l : List Int) : (sortedEnum l).length = l.length :=
  (sortedEnum_perm l).length_eq.trans List.enum_length

lemma mem_sortedEnum_facts (l : List Int) (p : Nat × Int)
    (hp : p ∈ sortedEnum l) : p.1 < l.length ∧ l.getD p.1 0 = p.2 := by
  have hp' : p ∈ l.enum := (sortedEnum_perm l).mem_iff.mp hp
  have hg : l[p.1]? = some p.2 := List.mem_enum_iff_getElem?.mp hp'
  obtain ⟨hlt, hval⟩ := List.getElem?_eq_some.mp hg
  exact ⟨hlt, by rw [List.getD_eq_getElem l 0 hlt, hval]⟩

lemma gather_argsort (l : List Int) :
    gather l (argsort l) = (sortedEnum l).map Prod.snd := by
  unfold gather argsort
  rw [List.map_map]
  apply List.map_congr_left
  intro p hp
  simp only [Function.comp]
  exact (mem_sortedEnum_facts l p hp).2

lemma eqMask_map_snd (xs : List (Nat × Int)) :
    eqMask (xs.map Prod.snd) =
      (xs.dropLast.zip xs.tail).map (fun q => q.1.2 == q.2.2) := by
  unfold eqMask
  rw [← List.map_dropLast, ← List.map_tail, List.zip_map, List.map_map]
  apply List.map_congr_left
  intro q _
  rfl

/-- Any adjacent pair of a list arises from a split of the list. -/
lemma mem_zip_dropLast_tail {α : Type} {l : List α} {pr : α × α}
    (h : pr ∈ l.dropLast.zip l.tail) :
    ∃ ys zs, l = ys ++ pr.1 :: pr.2 :: zs := by
  induction l with
  | nil => simp at h
  | cons a t ih =>
    cases t with
    | nil => simp at h
    | cons b t' =>
      rw [List.dropLast_cons₂, List.tail_cons, List.zip_cons_cons] at h
      rcases List.mem_cons.mp h with h1 | h1
      · exact ⟨[], t', by simp [h1]⟩
      · obtain ⟨ys, zs, hsplit⟩ := ih (by simpa using h1)
        exact ⟨a :: ys, zs, by rw [List.cons_append, ← hsplit]⟩

/-- Adjacent entries of the stable sorted permutation that share the same
value have strictly increasing original positions. -/
lemma sortedEnum_adj_pos_lt (l : List Int) {pr : (Nat × Int) × (Nat × Int)}
    (h : pr ∈ (sortedEnum l).dropLast.zip (sortedEnum l).tail)
    (heq : pr.1.2 = pr.2.2) : pr.1.1 < pr.2.1 := by
  obtain ⟨ys, zs, hsplit⟩ := mem_zip_dropLast_tail h
  have hsub : List.Sublist [pr.1, pr.2] (sortedEnum l) := by
    rw [hsplit]
    exact (List.Sublist.cons₂ _ (List.Sublist.cons₂ _ (List.nil_sublist zs))).trans
      (List.sublist_append_right ys _)
  have hpair : pairLe pr.1 pr.2 := by
    have hps := (sortedEnum_sorted l).sublist hsub
    exact (List.pairwise_cons.mp hps).1 pr.2 (List.mem_cons_self _ _)
  have hne : pr.1 ≠ pr.2 := by
    have hnd := (sortedEnum_nodup l).sublist hsub
    exact (List.pairwise_cons.mp hnd).1 pr.2 (List.mem_cons_self _ _)
  rcases hpair with h1 | ⟨h1, h2⟩
  · rw [heq] at h1
    exact absurd h1 (lt_irrefl _)
  · rcases lt_or_eq_of_le h2 with h3 | h3
    · exact h3
    · exact absurd (Prod.ext h3 heq) hne

/-- Two distinct positions of the concatenation of two duplicate-free
lists carrying the same value must straddle the boundary: the earlier one
lies in the first list, the later one in the second. -/
lemma same_value_positions (u1 u2 : List Int) (h1 : u1.Nodup) (h2 : u2.Nodup)
    {i j : Nat} {v : Int} (hij : i < j) (hj : j < (u1 ++ u2).length)
    (hvi : (u1 ++ u2).getD i 0 = v) (hvj : (u1 ++ u2).getD j 0 = v) :
    i < u1.length ∧ u1.length ≤ j ∧
      u1.getD i 0 = v ∧ u2.getD (j - u1.length) 0 = v := by
  have hi : i < (u1 ++ u2).length := lt_trans hij hj
  have hlen : (u1 ++ u2).length = u1.length + u2.length := List.length_append u1 u2
  rw [List.getD_eq_getElem _ 0 hi] at hvi
  rw [List.getD_eq_getElem _ 0 hj] at hvj
  by_cases hi1 : i < u1.length
  · by_cases hj1 : j < u1.length
    · exfalso
      have e1 : u1[i] = v := by rw [← List.getElem_append_left hi1]; exact hvi
      have e2 : u1[j] = v := by rw [← List.getElem_append_left hj1]; exact hvj
      have : i = j := h1.getElem_inj_iff.mp (e1.trans e2.symm)
      omega
    · have hj2 : u1.length ≤ j := le_of_not_lt hj1
      refine ⟨hi1, hj2, ?_, ?_⟩
      · rw [List.getD_eq_getElem u1 0 hi1, ← List.getElem_append_left hi1]
        exact hvi
      · have hjr : j - u1.length < u2.length := by omega
        rw [List.getD_eq_getElem u2 0 hjr]
        rw [List.getElem_append_right hj2] at hvj
        exact hvj
  · exfalso
    have hi2 : u1.length ≤ i := le_of_not_lt hi1
    have hj2 : u1.length ≤ j := by omega
    have hir : i - u1.length < u2.length := by omega
    have hjr : j - u1.length < u2.length := by omega
    rw [List.getElem_append_right hi2] at hvi
    rw [List.getElem_append_right hj2] at hvj
    have : i - u1.length = j - u1.length :=
      h2.getElem_inj_iff.mp (hvi.trans hvj.symm)
    omega

/-- The three outputs of the index-returning core, re-expressed as maps
over mask-selections of the stable sorted permutation. -/
lemma core_fst (u1 u2 : List Int) :
    (intersectIdxCore u1 u2).1 =
      (boolSelect (sortedEnum (u1 ++ u2)).dropLast
          (eqMask (gather (u1 ++ u2) (argsort (u1 ++ u2))))).map Prod.snd := by
  show boolSelect (gather (u1 ++ u2) (argsort (u1 ++ u2))).dropLast _ = _
  rw [gather_argsort, ← List.map_dropLast, boolSelect_map]

lemma core_snd (u1 u2 : List Int) :
    (intersectIdxCore u1 u2).2.1 =
      (boolSelect (sortedEnum (u1 ++ u2)).dropLast
          (eqMask (gather (u1 ++ u2) (argsort (u1 ++ u2))))).map
        (fun p => (p.1 : Int)) := by
  show (boolSelect (argsort (u1 ++ u2)).dropLast _).map (fun i : Nat => (i : Int)) = _
  unfold argsort
  rw [← List.map_dropLast, boolSelect_map, List.map_map]
  rfl

lemma core_trd (u1 u2 : List Int) :
    (intersectIdxCore u1 u2).2.2 =
      (boolSelect (sortedEnum (u1 ++ u2)).tail
          (eqMask (gather (u1 ++ u2) (argsort (u1 ++ u2))))).map
        (fun p => (p.1 : Int) - (u1.length : Int)) := by
  show (boolSelect (argsort (u1 ++ u2)).tail _).map
      (fun i : Nat => (i : Int) - (u1.length : Int)) = _
  unfold argsort
  rw [← List.map_tail, boolSelect_map, List.map_map]
  rfl

/-- Every mask-selected adjacent pair of the stable sorted permutation of
`u1 ++ u2` (both duplicate-free) consists of a position in `u1` and a
position in `u2` carrying the same value. -/
lemma core_pair_facts (u1 u2 : List Int) (h1 : u1.Nodup) (h2 : u2.Nodup)
    (pr : (Nat × Int) × (Nat × Int))
    (hpr : pr ∈ boolSelect
        ((sortedEnum (u1 ++ u2)).dropLast.zip (sortedEnum (u1 ++ u2)).tail)
        (eqMask (gather (u1 ++ u2) (argsort (u1 ++ u2))))) :
    pr.1.2 = pr.2.2 ∧ pr.1.1 < u1.length ∧ u1.length ≤ pr.2.1 ∧
      pr.2.1 < u1.length + u2.length ∧
      u1.getD pr.1.1 0 = pr.1.2 ∧ u2.getD (pr.2.1 - u1.length) 0 = pr.1.2 := by
  rw [gather_argsort, eqMask_map_snd] at hpr
  have heqb := mem_boolSelect_self_map _ hpr
  have heq : pr.1.2 = pr.2.2 := beq_iff_eq.mp heqb
  have hL : pr ∈ (sortedEnum (u1 ++ u2)).dropLast.zip (sortedEnum (u1 ++ u2)).tail :=
    mem_boolSelect hpr
  have hlt : pr.1.1 < pr.2.1 := sortedEnum_adj_pos_lt (u1 ++ u2) hL heq
  obtain ⟨hm1, hm2⟩ := List.of_mem_zip hL
  have hp1 : pr.1 ∈ sortedEnum (u1 ++ u2) :=
    (List.dropLast_sublist _).mem hm1
  have hp2 : pr.2 ∈ sortedEnum (u1 ++ u2) :=
    (List.tail_sublist _).mem hm2
  obtain ⟨hb1, hv1⟩ := mem_sortedEnum_facts _ _ hp1
  obtain ⟨hb2, hv2⟩ := mem_sortedEnum_facts _ _ hp2
  have hv2' : (u1 ++ u2).getD pr.2.1 0 = pr.1.2 := by rw [hv2, heq]
  obtain ⟨q1, q2, q3, q4⟩ :=
    same_value_positions u1 u2 h1 h2 hlt hb2 hv1 hv2'
  refine ⟨heq, q1, q2, ?_, q3, q4⟩
  rw [List.length_append] at hb2
  exact hb2

/-! ### Claim theorems: membership, intersection values, union, reductions -/

/-- C1: `in1d(Q, R, invert)` returns one boolean per element of the
flattened query, true exactly when that element occurs in the reference
(negated under `invert`); with an empty query the result is empty and with
an empty reference it is constantly `invert`.  The map characterisation
covers every case, and the stated empty-input boundary cases and the
concrete scenario are instances. -/
theorem in1d_membership :
    (∀ (Q R : NDArray) (au inv : Bool),
        in1d Q R au inv = Q.data.map (fun v => inv != decide (v ∈ R.data)))
    ∧ in1d ⟨[0], []⟩ ⟨[3], [5, 7, 9]⟩ false false = []
    ∧ in1d ⟨[2], [4, 6]⟩ ⟨[0], []⟩ false false = [false, false]
    ∧ in1d ⟨[2], [4, 6]⟩ ⟨[0], []⟩ false true = [true, true]
    ∧ in1d ⟨[4], [1, 2, 2, 3]⟩ ⟨[3], [2, 3, 4]⟩ false false
        = [false, true, true, true] :=
  ⟨in1d_eq_map, by decide, by decide, by decide, by decide⟩

/-- C2: `intersect1d(a, b, assume_unique)` (values only) is sorted,
duplicate-free, and contains exactly the values occurring in both inputs;
when `assume_unique` is set the inputs are required to be duplicate-free. -/
theorem intersect1d_correct (A B : NDArray) (au : Bool)
    (h : au = true → A.data.Nodup ∧ B.data.Nodup) :
    (intersect1d A B au).Sorted (· ≤ ·) ∧ (intersect1d A B au).Nodup ∧
      ∀ v : Int, v ∈ intersect1d A B au ↔ (v ∈ A.data ∧ v ∈ B.data) := by
  cases au with
  | false =>
    have heq : intersect1d A B false =
        extractAdj (cupySort (cupyUnique A.data ++ cupyUnique B.data)) := by
      simp [intersect1d, boolSelect_eqMask]
    obtain ⟨hs, hn, hm⟩ :=
      interCore (cupyUnique A.data) (cupyUnique B.data)
        (cupyUnique_nodup _) (cupyUnique_nodup _)
    rw [heq]
    refine ⟨hs, hn, ?_⟩
    intro v
    rw [hm v, mem_cupyUnique, mem_cupyUnique]
  | true =>
    obtain ⟨hA, hB⟩ := h rfl
    have heq : intersect1d A B true =
        extractAdj (cupySort (A.data ++ B.data)) := by
      simp [intersect1d, boolSelect_eqMask]
    obtain ⟨hs, hn, hm⟩ := interCore A.data B.data hA hB
    rw [heq]
    exact ⟨hs, hn, hm⟩

/-- Witness for C2, at the spec's concrete scenario
`intersect1d([1,2,2,3], [2,3,4]) == [2,3]` and at the empty boundary
`intersect1d([], r) == []`. -/
theorem intersect1d_correct_witness :
    ((intersect1d ⟨[4], [1, 2, 2, 3]⟩ ⟨[3], [2, 3, 4]⟩ false).Sorted (· ≤ ·) ∧
      (intersect1d ⟨[4], [1, 2, 2, 3]⟩ ⟨[3], [2, 3, 4]⟩ false).Nodup ∧
      ∀ v : Int, v ∈ intersect1d ⟨[4], [1, 2, 2, 3]⟩ ⟨[3], [2, 3, 4]⟩ false ↔
        (v ∈ [(1 : Int), 2, 2, 3] ∧ v ∈ [(2 : Int), 3, 4])) ∧
    intersect1d ⟨[4], [1, 2, 2, 3]⟩ ⟨[3], [2, 3, 4]⟩ false = [2, 3] ∧
    intersect1d ⟨[0], []⟩ ⟨[1], [5]⟩ false = [] :=
  ⟨intersect1d_correct ⟨[4], [1, 2, 2, 3]⟩ ⟨[3], [2, 3, 4]⟩ false
      (fun hfa => absurd hfa (by decide)),
    by decide, by decide⟩

/-- C5: `union1d(a, b)` is the sorted, duplicate-free list of the values
occurring in either input, and matches the spec's concrete scenario. -/
theorem union1d_correct :
    (∀ (A B : NDArray),
        (union1d A B).Sorted (· ≤ ·) ∧ (union1d A B).Nodup ∧
          ∀ v : Int, v ∈ union1d A B ↔ (v ∈ A.data ∨ v ∈ B.data))
    ∧ union1d ⟨[4], [1, 2, 2, 3]⟩ ⟨[3], [2, 3, 4]⟩ = [1, 2, 3, 4] := by
  constructor
  · intro A B
    refine ⟨cupyUnique_sorted _, cupyUnique_nodup _, ?_⟩
    intro v
    show v ∈ cupyUnique (A.data ++ B.data) ↔ _
    rw [mem_cupyUnique, List.mem_append]
  · decide

/-- C6: `isin(x, y, invert=true)` is the elementwise negation of
`isin(x, y, invert=false)`, and both carry exactly the shape of `x`. -/
theorem isin_invert_negation :
    ∀ (x y : NDArray) (au : Bool),
      (isin x y au true).data = (isin x y au false).data.map (fun b => !b) ∧
      (isin x y au true).shape = x.shape ∧
      (isin x y au false).shape = x.shape := by
  intro x y au
  refine ⟨?_, rfl, rfl⟩
  show in1d x y au true = (in1d x y au false).map (fun b => !b)
  rw [in1d_eq_map, in1d_eq_map, List.map_map]
  apply List.map_congr_left
  intro v _
  cases hd : decide (v ∈ y.data) <;> simp [Function.comp, hd]

/-- C7: under an active fusion context with `keepdims` requested, both
reductions signal the unsupported configuration as an error value, so no
reduction result is produced. -/
theorem fusion_keepdims_error (a : NDArray) (fusing keepdims : Bool)
    (h1 : fusing = true) (h2 : keepdims = true) :
    cupyAll fusing a keepdims =
        Except.error "cupy.all does not support keepdims in fusion yet." ∧
      cupyAny fusing a keepdims =
        Except.error "cupy.any does not support keepdims in fusion yet." := by
  subst h1
  subst h2
  exact ⟨rfl, rfl⟩

/-- Witness for C7 at a concrete array. -/
theorem fusion_keepdims_error_witness :
    cupyAll true ⟨[2], [1, 0]⟩ true =
        Except.error "cupy.all does not support keepdims in fusion yet." ∧
      cupyAny true ⟨[2], [1, 0]⟩ true =
        Except.error "cupy.any does not support keepdims in fusion yet." :=
  fusion_keepdims_error ⟨[2], [1, 0]⟩ true true rfl rfl

/-- C8: the `assume_unique` flag of the membership functions is accepted
but has no effect: for any inputs and either `invert` value, `in1d` and
`isin` return identical results for both flag values. -/
theorem assume_unique_ignored :
    ∀ (a b : NDArray) (inv : Bool),
      in1d a b true inv = in1d a b false inv ∧
      isin a b true inv = isin a b false inv :=
  fun _ _ _ => ⟨rfl, rfl⟩

lemma core_lengths (u1 u2 : List Int) :
    (intersectIdxCore u1 u2).2.1.length = (intersectIdxCore u1 u2).1.length ∧
      (intersectIdxCore u1 u2).2.2.length = (intersectIdxCore u1 u2).1.length := by
  constructor
  · rw [core_fst, core_snd]
    simp
  · rw [core_fst, core_trd]
    simp only [List.length_map]
    exact boolSelect_length_congr _ _ _
      (by rw [List.length_tail, List.length_dropLast])

/-- C10: `intersect1d` with `return_indices=True` returns exactly three
arrays (the value of `intersect1dIdx` is a triple by construction), and
both index arrays have the same length as the intersection-values array,
for either value of `assume_unique`. -/
theorem intersect1dIdx_lengths :
    ∀ (a b : NDArray) (au : Bool),
      (intersect1dIdx a b au).2.1.length = (intersect1dIdx a b au).1.length ∧
      (intersect1dIdx a b au).2.2.length = (intersect1dIdx a b au).1.length := by
  intro a b au
  cases au with
  | true => simpa [intersect1dIdx] using core_lengths a.data b.data
  | false =>
    simpa [intersect1dIdx] using
      core_lengths (cupyUnique a.data) (cupyUnique b.data)

/-- C4: with duplicate-free prepared inputs, every entry of the first
derived index array of the `return_indices` core is a valid position of the
first input (`0 ≤ i < n1`), and every entry of the second derived index
array — the selected sorted-permutation entry minus `n1` — is a valid
position of the second input (`0 ≤ j < n2`); hence the subsequent lookups
into the first-occurrence arrays `ind1`/`ind2` are in bounds.  This rests
on the stable tie-breaking of the modelled `argsort`, which places
`arr1`-derived entries before `arr2`-derived entries among equal values. -/
theorem intersectIdx_bounds (u1 u2 : List Int)
    (h1 : u1.Nodup) (h2 : u2.Nodup) :
    (∀ i ∈ (intersectIdxCore u1 u2).2.1,
        0 ≤ i ∧ i < (u1.length : Int)) ∧
    (∀ j ∈ (intersectIdxCore u1 u2).2.2,
        0 ≤ j ∧ j < (u2.length : Int)) := by
  have hlen : (sortedEnum (u1 ++ u2)).dropLast.length
      = (sortedEnum (u1 ++ u2)).tail.length := by
    rw [List.length_tail, List.length_dropLast]
  constructor
  · intro i hi
    rw [core_snd] at hi
    obtain ⟨p, hp, hpi⟩ := List.mem_map.mp hi
    obtain ⟨q, hq⟩ := boolSelect_pair_left _ _ _ hlen hp
    obtain ⟨_, hb1, _, _, _, _⟩ :=
      core_pair_facts u1 u2 h1 h2 (p, q) hq
    have hb1' : p.1 < u1.length := hb1
    subst hpi
    show 0 ≤ ((p.1 : Nat) : Int) ∧ ((p.1 : Nat) : Int) < ((u1.length : Nat) : Int)
    omega
  · intro j hj
    rw [core_trd] at hj
    obtain ⟨q, hq, hqj⟩ := List.mem_map.mp hj
    obtain ⟨p, hp⟩ := boolSelect_pair_right _ _ _ hlen hq
    obtain ⟨_, _, hb2, hb3, _, _⟩ :=
      core_pair_facts u1 u2 h1 h2 (p, q) hp
    have hb2' : u1.length ≤ q.1 := hb2
    have hb3' : q.1 < u1.length + u2.length := hb3
    subst hqj
    show 0 ≤ ((q.1 : Nat) : Int) - ((u1.length : Nat) : Int) ∧
      ((q.1 : Nat) : Int) - ((u1.length : Nat) : Int) < ((u2.length : Nat) : Int)
    omega

lemma boolSelect_get_pair_mem {α β : Type} (l1 : List α) (l2 : List β)
    (m : List Bool) (k : Nat) (hk1 : k < (boolSelect l1 m).length)
    (hk2 : k < (boolSelect l2 m).length) :
    ((boolSelect l1 m).get ⟨k, hk1⟩, (boolSelect l2 m).get ⟨k, hk2⟩)
      ∈ boolSelect (l1.zip l2) m := by
  have hkz : k < ((boolSelect l1 m).zip (boolSelect l2 m)).length := by
    rw [List.length_zip]
    omega
  have hg : ((boolSelect l1 m).zip (boolSelect l2 m))[k]
      = ((boolSelect l1 m)[k], (boolSelect l2 m)[k]) := List.getElem_zip
  have hmem : ((boolSelect l1 m).zip (boolSelect l2 m))[k]
      ∈ (boolSelect l1 m).zip (boolSelect l2 m) := List.getElem_mem hkz
  rw [hg, boolSelect_zip] at hmem
  simpa [List.get_eq_getElem] using hmem

/-- For every output position of the index-returning core there is a
mask-selected adjacent pair of the stable sorted permutation producing the
value and the two raw indices at that position. -/
lemma core_provenance (u1 u2 : List Int) (h1 : u1.Nodup) (h2 : u2.Nodup)
    (k : Nat) (hk : k < (intersectIdxCore u1 u2).1.length) :
    ∃ p q : Nat × Int,
      (intersectIdxCore u1 u2).1.getD k 0 = p.2 ∧
      (intersectIdxCore u1 u2).2.1.getD k 0 = (p.1 : Int) ∧
      (intersectIdxCore u1 u2).2.2.getD k 0 = (q.1 : Int) - (u1.length : Int) ∧
      p.1 < u1.length ∧ u1.length ≤ q.1 ∧ q.1 < u1.length + u2.length ∧
      u1.getD p.1 0 = p.2 ∧ u2.getD (q.1 - u1.length) 0 = p.2 := by
  have hlen : (sortedEnum (u1 ++ u2)).dropLast.length
      = (sortedEnum (u1 ++ u2)).tail.length := by
    rw [List.length_tail, List.length_dropLast]
  have hk1 : k < (boolSelect (sortedEnum (u1 ++ u2)).dropLast
      (eqMask (gather (u1 ++ u2) (argsort (u1 ++ u2))))).length := by
    rw [core_fst] at hk
    simpa using hk
  have hk2 : k < (boolSelect (sortedEnum (u1 ++ u2)).tail
      (eqMask (gather (u1 ++ u2) (argsort (u1 ++ u2))))).length := by
    rw [← boolSelect_length_congr _ _ _ hlen]
    exact hk1
  refine ⟨(boolSelect (sortedEnum (u1 ++ u2)).dropLast
      (eqMask (gather (u1 ++ u2) (argsort (u1 ++ u2))))).get ⟨k, hk1⟩,
    (boolSelect (sortedEnum (u1 ++ u2)).tail
      (eqMask (gather (u1 ++ u2) (argsort (u1 ++ u2))))).get ⟨k, hk2⟩,
    ?_, ?_, ?_, ?_⟩
  · rw [core_fst, List.getD_eq_getElem _ 0 (by simpa using hk1),
      List.getElem_map]
    rfl
  · rw [core_snd, List.getD_eq_getElem _ 0 (by simpa using hk1),
      List.getElem_map]
    rfl
  · rw [core_trd, List.getD_eq_getElem _ 0 (by simpa using hk2),
      List.getElem_map]
    rfl
  · -- the remaining positional facts come from the selected adjacent pair
    have hzip := boolSelect_get_pair_mem
      (sortedEnum (u1 ++ u2)).dropLast (sortedEnum (u1 ++ u2)).tail
      (eqMask (gather (u1 ++ u2) (argsort (u1 ++ u2)))) k hk1 hk2
    obtain ⟨heq, hb1, hb2, hb3, hv1, hv2⟩ :=
      core_pair_facts u1 u2 h1 h2 _ hzip
    exact ⟨hb1, hb2, hb3, hv1, hv2⟩

/-- Witness for C4 at `u1 = [1,2,3]`, `u2 = [3,1,4]`. -/
theorem intersectIdx_bounds_witness :
    (∀ i ∈ (intersectIdxCore [1, 2, 3] [3, 1, 4]).2.1,
        0 ≤ i ∧ i < ((3 : Nat) : Int)) ∧
    (∀ j ∈ (intersectIdxCore [1, 2, 3] [3, 1, 4]).2.2,
        0 ≤ j ∧ j < ((3 : Nat) : Int)) :=
  intersectIdx_bounds [1, 2, 3] [3, 1, 4] (by decide) (by decide)

/-- C3: for `intersect1d(a, b, assume_unique=False, return_indices=True)`,
at every output position `k` the two index entries are the positions of
the first occurrence (`List.indexOf`) of the `k`-th intersection value in
the original arrays `a` and `b`, and reading the original arrays at those
positions returns exactly that value. -/
theorem intersect1dIdx_provenance (A B : NDArray) (k : Nat)
    (hk : k < (intersect1dIdx A B false).1.length) :
    ((intersect1dIdx A B false).2.1.getD k 0 =
        (A.data.indexOf ((intersect1dIdx A B false).1.getD k 0) : Int)) ∧
    ((intersect1dIdx A B false).2.2.getD k 0 =
        (B.data.indexOf ((intersect1dIdx A B false).1.getD k 0) : Int)) ∧
    A.data.getD (A.data.indexOf ((intersect1dIdx A B false).1.getD k 0)) 0 =
        (intersect1dIdx A B false).1.getD k 0 ∧
    B.data.getD (B.data.indexOf ((intersect1dIdx A B false).1.getD k 0)) 0 =
        (intersect1dIdx A B false).1.getD k 0 := by
  have hk0 : k < (intersectIdxCore (cupyUnique A.data) (cupyUnique B.data)).1.length := hk
  obtain ⟨p, q, hv, hi1, hi2, hb1, hb2, hb3, hu1v, hu2v⟩ :=
    core_provenance (cupyUnique A.data) (cupyUnique B.data)
      (cupyUnique_nodup _) (cupyUnique_nodup _) k hk0
  have hval : (intersect1dIdx A B false).1.getD k 0 = p.2 := hv
  rw [hval]
  have hu1v' : (cupyUnique A.data)[p.1] = p.2 := by
    rw [← List.getD_eq_getElem (cupyUnique A.data) 0 hb1]
    exact hu1v
  have hq2 : q.1 - (cupyUnique A.data).length < (cupyUnique B.data).length := by
    omega
  have hu2v' : (cupyUnique B.data)[q.1 - (cupyUnique A.data).length] = p.2 := by
    rw [← List.getD_eq_getElem (cupyUnique B.data) 0 hq2]
    exact hu2v
  have hmemA : p.2 ∈ A.data :=
    mem_cupyUnique.mp (hu1v' ▸ List.getElem_mem hb1)
  have hmemB : p.2 ∈ B.data :=
    mem_cupyUnique.mp (hu2v' ▸ List.getElem_mem hq2)
  have hidxA : A.data.indexOf p.2 < A.data.length :=
    List.indexOf_lt_length.mpr hmemA
  have hidxB : B.data.indexOf p.2 < B.data.length :=
    List.indexOf_lt_length.mpr hmemB
  refine ⟨?_, ?_, ?_, ?_⟩
  · have he2 : (intersect1dIdx A B false).2.1 =
        (intersectIdxCore (cupyUnique A.data) (cupyUnique B.data)).2.1.map
          (fun i : Int =>
            ((((cupyUnique A.data).map (fun v => A.data.indexOf v)).getD
                i.toNat 0 : Nat) : Int)) := rfl
    have hlen1 : k <
        (intersectIdxCore (cupyUnique A.data) (cupyUnique B.data)).2.1.length := by
      rw [(core_lengths (cupyUnique A.data) (cupyUnique B.data)).1]
      exact hk0
    have hcore1 : (intersectIdxCore (cupyUnique A.data)
        (cupyUnique B.data)).2.1[k] = ((p.1 : Nat) : Int) := by
      rw [← List.getD_eq_getElem _ 0 hlen1]
      exact hi1
    rw [he2, List.getD_eq_getElem _ 0 (by simpa using hlen1),
      List.getElem_map, hcore1]
    have ht : ((p.1 : Nat) : Int).toNat = p.1 := rfl
    rw [ht]
    have hp1len : p.1 <
        ((cupyUnique A.data).map (fun v => A.data.indexOf v)).length := by
      simpa using hb1
    rw [List.getD_eq_getElem _ 0 hp1len, List.getElem_map, hu1v']
  · have he3 : (intersect1dIdx A B false).2.2 =
        (intersectIdxCore (cupyUnique A.data) (cupyUnique B.data)).2.2.map
          (fun j : Int =>
            ((((cupyUnique B.data).map (fun v => B.data.indexOf v)).getD
                j.toNat 0 : Nat) : Int)) := rfl
    have hlen2 : k <
        (intersectIdxCore (cupyUnique A.data) (cupyUnique B.data)).2.2.length := by
      rw [(core_lengths (cupyUnique A.data) (cupyUnique B.data)).2]
      exact hk0
    have hcore2 : (intersectIdxCore (cupyUnique A.data)
        (cupyUnique B.data)).2.2[k] =
        ((q.1 : Nat) : Int) - (((cupyUnique A.data).length : Nat) : Int) := by
      rw [← List.getD_eq_getElem _ 0 hlen2]
      exact hi2
    rw [he3, List.getD_eq_getElem _ 0 (by simpa using hlen2),
      List.getElem_map, hcore2]
    have ht : (((q.1 : Nat) : Int) - (((cupyUnique A.data).length : Nat) : Int)).toNat
        = q.1 - (cupyUnique A.data).length := by
      omega
    rw [ht]
    have hq2len : q.1 - (cupyUnique A.data).length <
        ((cupyUnique B.data).map (fun v => B.data.indexOf v)).length := by
      simpa using hq2
    rw [List.getD_eq_getElem _ 0 hq2len, List.getElem_map, hu2v']
  · rw [List.getD_eq_getElem _ 0 hidxA]
    exact List.getElem_indexOf hidxA
  · rw [List.getD_eq_getElem _ 0 hidxB]
    exact List.getElem_indexOf hidxB

/-- Witness for C3 at the spec's concrete scenario
`intersect1d([1,2,3], [3,1,4], return_indices=True)`, whose result is
`([1,3], [0,2], [1,0])`, checked at output position `0`. -/
theorem intersect1dIdx_provenance_witness :
    intersect1dIdx ⟨[3], [1, 2, 3]⟩ ⟨[3], [3, 1, 4]⟩ false
        = ([1, 3], [0, 2], [1, 0]) ∧
    (((intersect1dIdx ⟨[3], [1, 2, 3]⟩ ⟨[3], [3, 1, 4]⟩ false).2.1.getD 0 0 =
        ((NDArray.mk [3] [1, 2, 3]).data.indexOf
          ((intersect1dIdx ⟨[3], [1, 2, 3]⟩ ⟨[3], [3, 1, 4]⟩ false).1.getD 0 0) : Int)) ∧
      ((intersect1dIdx ⟨[3], [1, 2, 3]⟩ ⟨[3], [3, 1, 4]⟩ false).2.2.getD 0 0 =
        ((NDArray.mk [3] [3, 1, 4]).data.indexOf
          ((intersect1dIdx ⟨[3], [1, 2, 3]⟩ ⟨[3], [3, 1, 4]⟩ false).1.getD 0 0) : Int)) ∧
      (NDArray.mk [3] [1, 2, 3]).data.getD
          ((NDArray.mk [3] [1, 2, 3]).data.indexOf
            ((intersect1dIdx ⟨[3], [1, 2, 3]⟩ ⟨[3], [3, 1, 4]⟩ false).1.getD 0 0)) 0 =
        (intersect1dIdx ⟨[3], [1, 2, 3]⟩ ⟨[3], [3, 1, 4]⟩ false).1.getD 0 0 ∧
      (NDArray.mk [3] [3, 1, 4]).data.getD
          ((NDArray.mk [3] [3, 1, 4]).data.indexOf
            ((intersect1dIdx ⟨[3], [1, 2, 3]⟩ ⟨[3], [3, 1, 4]⟩ false).1.getD 0 0)) 0 =
        (intersect1dIdx ⟨[3], [1, 2, 3]⟩ ⟨[3], [3, 1, 4]⟩ false).1.getD 0 0) :=
  ⟨by decide,
    intersect1dIdx_provenance ⟨[3], [1, 2, 3]⟩ ⟨[3], [3, 1, 4]⟩ 0 (by decide)⟩

/-! ### Frame model: the operations never mutate caller-supplied arrays

The source derives every intermediate array (`cupy.sort`/`cupy.unique`
outputs, the concatenation buffer, mask selections) as a fresh array; the
single in-place operation, `aux.sort()` in `intersect1d`, targets the
freshly concatenated buffer.  To state this, the operations are replayed
over an explicit heap of buffers in which the inputs are references. -/

/-- A heap of device buffers; array references are positions into it. -/
abbrev Heap := List (List Int)

/-- Read the buffer behind a reference. -/
def readH (h : Heap) (r : Nat) : List Int := h.getD r []

/-- Allocate a fresh buffer and return its reference. -/
def allocH (h : Heap) (v : List Int) : Heap × Nat := (h ++ [v], h.length)

/-- Overwrite a buffer in place (the `aux.sort()` call of `intersect1d`). -/
def writeH (h : Heap) (r : Nat) (v : List Int) : Heap := h.set r v

/-- Heap-level `in1d`: the sorted copy of the reference, the two
searchsorted outputs and the boolean result (stored as 0/1) are all fresh
allocations; the raveled inputs are only read. -/
def in1dH (h : Heap) (r1 r2 : Nat) (invert : Bool) : Heap × Nat :=
  let a1 := readH h r1
  let a2 := readH h r2
  if a1.length = 0 ∨ a2.length = 0 then
    allocH h (List.replicate a1.length (if invert then 1 else 0))
  else
    let s := allocH h (cupySort a2)
    let v1 := allocH s.1
      ((readH s.1 r1).map (fun v => (ssLeft (readH s.1 s.2) v : Int)))
    let v2 := allocH v1.1
      ((readH v1.1 r1).map (fun v => (ssRight (readH v1.1 s.2) v : Int)))
    allocH v2.1 (((readH v2.1 v1.2).zip (readH v2.1 v2.2)).map
      (fun p => if invert then (if p.1 = p.2 then 1 else 0)
                else (if p.1 = p.2 then 0 else 1)))

/-- Heap-level `isin`: `in1d` followed by a reshape, which is a view and
touches no buffer. -/
def isinH (h : Heap) (r1 r2 : Nat) (invert : Bool) : Heap × Nat :=
  in1dH h r1 r2 invert

/-- Heap-level `intersect1d`: dedup results and the concatenation buffer
are fresh; without `return_indices` the concatenation buffer is then
sorted in place, with `return_indices` the permutation, the reordered
buffer and the derived index arrays are all fresh.  Returns the
references of the returned arrays. -/
def intersect1dH (h : Heap) (r1 r2 : Nat)
    (assume_unique return_indices : Bool) : Heap × List Nat :=
  let p1 := if assume_unique then (h, r1)
            else allocH h (cupyUnique (readH h r1))
  let p2 := if assume_unique then (p1.1, r2)
            else allocH p1.1 (cupyUnique (readH p1.1 r2))
  let aux := allocH p2.1 (readH p2.1 p1.2 ++ readH p2.1 p2.2)
  if return_indices then
    let auxv := readH aux.1 aux.2
    let asi := allocH aux.1 ((argsort auxv).map (fun i : Nat => (i : Int)))
    let aux2 := allocH asi.1 (gather auxv (argsort auxv))
    let m := eqMask (readH aux2.1 aux2.2)
    let int1d := allocH aux2.1 (boolSelect (readH aux2.1 aux2.2).dropLast m)
    let c1 := allocH int1d.1
      ((boolSelect (argsort auxv).dropLast m).map (fun i : Nat => (i : Int)))
    let c2 := allocH c1.1
      ((boolSelect (argsort auxv).tail m).map
        (fun i : Nat => (i : Int) - ((readH c1.1 p1.2).length : Int)))
    (c2.1, [int1d.2, c1.2, c2.2])
  else
    let h3 := writeH aux.1 aux.2 (cupySort (readH aux.1 aux.2))
    let m := eqMask (readH h3 aux.2)
    let int1d := allocH h3 (boolSelect (readH h3 aux.2).dropLast m)
    (int1d.1, [int1d.2])

/-- Heap-level `union1d`: the concatenation and the unique result are
fresh allocations. -/
def union1dH (h : Heap) (r1 r2 : Nat) : Heap × Nat :=
  let c := allocH h (readH h r1 ++ readH h r2)
  allocH c.1 (cupyUnique (readH c.1 c.2))

/-- The final heap extends the initial one: the prefix holding all
pre-existing buffers (in particular the inputs) is intact. -/
def ExtendsH (h h2 : Heap) : Prop :=
  h2.take h.length = h ∧ h.length ≤ h2.length

lemma extendsH_refl (h : Heap) : ExtendsH h h :=
  ⟨List.take_length h, le_refl _⟩

lemma extendsH_alloc (h h2 : Heap) (v : List Int) (he : ExtendsH h h2) :
    ExtendsH h (allocH h2 v).1 := by
  obtain ⟨ht, hle⟩ := he
  constructor
  · unfold allocH
    rw [List.take_append_of_le_length hle]
    exact ht
  · unfold allocH
    rw [List.length_append]
    simp only [List.length_cons, List.length_nil]
    omega

lemma take_set_of_le (l : Heap) (r n : Nat) (v : List Int) (h : n ≤ r) :
    (l.set r v).take n = l.take n := by
  apply List.ext_getElem?
  intro j
  rw [List.getElem?_take, List.getElem?_take]
  by_cases hj : j < n
  · rw [if_pos hj, if_pos hj, List.getElem?_set_ne (by omega : r ≠ j)]
  · rw [if_neg hj, if_neg hj]

lemma extendsH_write (h h2 : Heap) (r : Nat) (v : List Int)
    (he : ExtendsH h h2) (hr : h.length ≤ r) : ExtendsH h (writeH h2 r v) := by
  obtain ⟨ht, hle⟩ := he
  constructor
  · unfold writeH
    rw [take_set_of_le h2 r h.length v hr]
    exact ht
  · unfold writeH
    rw [List.length_set]
    exact hle

lemma allocH_ref (h : Heap) (v : List Int) : (allocH h v).2 = h.length := rfl

lemma in1dH_frame (h : Heap) (r1 r2 : Nat) (inv : Bool) :
    ExtendsH h (in1dH h r1 r2 inv).1 := by
  simp only [in1dH]
  by_cases hc : (readH h r1).length = 0 ∨ (readH h r2).length = 0
  · rw [if_pos hc]
    exact extendsH_alloc _ _ _ (extendsH_refl h)
  · rw [if_neg hc]
    exact extendsH_alloc _ _ _ (extendsH_alloc _ _ _
      (extendsH_alloc _ _ _ (extendsH_alloc _ _ _ (extendsH_refl h))))

lemma intersect1dH_frame (h : Heap) (r1 r2 : Nat) (au ri : Bool) :
    ExtendsH h (intersect1dH h r1 r2 au ri).1 := by
  cases au with
  | true =>
    cases ri with
    | true =>
      simp only [intersect1dH, if_pos]
      exact extendsH_alloc _ _ _ (extendsH_alloc _ _ _ (extendsH_alloc _ _ _
        (extendsH_alloc _ _ _ (extendsH_alloc _ _ _
          (extendsH_alloc _ _ _ (extendsH_refl h))))))
    | false =>
      simp only [intersect1dH, if_pos]
      refine extendsH_alloc _ _ _ (extendsH_write _ _ _ _
        (extendsH_alloc _ _ _ (extendsH_refl h)) ?_)
      rw [allocH_ref]
  | false =>
    cases ri with
    | true =>
      simp only [intersect1dH, if_pos]
      exact extendsH_alloc _ _ _ (extendsH_alloc _ _ _ (extendsH_alloc _ _ _
        (extendsH_alloc _ _ _ (extendsH_alloc _ _ _ (extendsH_alloc _ _ _
          (extendsH_alloc _ _ _ (extendsH_alloc _ _ _ (extendsH_refl h))))))))
    | false =>
      simp only [intersect1dH, if_pos]
      refine extendsH_alloc _ _ _ (extendsH_write _ _ _ _
        (extendsH_alloc _ _ _ (extendsH_alloc _ _ _
          (extendsH_alloc _ _ _ (extendsH_refl h)))) ?_)
      rw [allocH_ref]
      exact (extendsH_alloc h _ _ (extendsH_alloc h _ _ (extendsH_refl h))).2

lemma union1dH_frame (h : Heap) (r1 r2 : Nat) :
    ExtendsH h (union1dH h r1 r2).1 := by
  simp only [union1dH]
  exact extendsH_alloc _ _ _ (extendsH_alloc _ _ _ (extendsH_refl h))

/-- C9: no public operation mutates a caller-supplied input array.  Over
the heap model, every pre-existing buffer — in particular every input —
is unchanged by `in1d`, `isin`, `intersect1d` (any flag combination) and
`union1d`: derived arrays are fresh allocations, and the single in-place
sort (`aux.sort()`) targets the freshly concatenated buffer. -/
theorem no_input_mutation :
    ∀ (h : Heap) (r1 r2 : Nat) (au ri inv : Bool),
      (in1dH h r1 r2 inv).1.take h.length = h ∧
      (isinH h r1 r2 inv).1.take h.length = h ∧
      (intersect1dH h r1 r2 au ri).1.take h.length = h ∧
      (union1dH h r1 r2).1.take h.length = h :=
  fun h r1 r2 au ri inv =>
    ⟨(in1dH_frame h r1 r2 inv).1, (in1dH_frame h r1 r2 inv).1,
      (intersect1dH_frame h r1 r2 au ri).1, (union1dH_frame h r1 r2).1⟩

end CupySet
